import Mathlib

/-!
Verification of the NFLSTATSAPP ingestion pipeline, shallowly embedded from
`src/ingestion/balldontlie_client.py`, `src/ingestion/balldontlie_ingestor.py`
and `src/ingestion/ingest_betting_and_extras.py`.

Python dictionaries produced by the mappers are embedded as association lists
from field names to optional literal values; upstream JSON records are embedded
as structures whose `Option` fields mirror the `.get` accesses that the code
performs.  Wall-clock reads (`_now_iso`, `time.time`) become explicit
parameters.
-/

namespace NFLStats

/-- A flat JSON-ish literal value, as stored in one field of a mapped row. -/
inductive Lit where
  | int (i : Int)
  | str (s : String)
  | bool (b : Bool)
  deriving DecidableEq, Repr

/-- Python truthiness of a literal (`0`, `""`, `False` are falsy). -/
def Lit.truthy : Lit → Bool
  | .int i => i != 0
  | .str s => s ≠ ""
  | .bool b => b

/-- A mapped row: the literal dict built by a mapper.  A field holding `none`
is Python `None`. -/
abbrev Row : Type := List (String × Option Lit)

/-- `mapped.get(f)`: `none` when the field is absent or holds Python `None`. -/
def getField (r : Row) (f : String) : Option Lit :=
  match r with
  | [] => none
  | (k, v) :: rest => if k = f then v else getField rest f

/-- The persisted table: an ordered list of rows (insertion order preserved,
as rows of a relational table reached by successive upserts). -/
abbrev Store : Type := List Row

/-- The conflict-key projection of a row: the values of the `on_conflict`
columns, in order. -/
def keyOf (ks : List String) (r : Row) : List (Option Lit) :=
  ks.map (getField r)

/-- One `INSERT ... ON CONFLICT (ks) DO UPDATE` of a single row: the first
stored row with a matching conflict key is replaced wholesale by the new row;
if no row matches, the new row is appended. -/
def upsertRow (ks : List String) (s : Store) (r : Row) : Store :=
  match s with
  | [] => [r]
  | q :: rest =>
    if keyOf ks q = keyOf ks r then r :: rest else q :: upsertRow ks rest r

/-- `supabase.upsert(table, rows, on_conflict=ks)`: upsert each row in order. -/
def upsertMany (ks : List String) (s : Store) (rows : List Row) : Store :=
  rows.foldl (upsertRow ks) s

/-- Upstream team record (`balldontlie_ingestor.map_team` reads these keys). -/
structure TeamRecord where
  id : Option Lit
  conference : Option Lit
  division : Option Lit
  location : Option Lit
  name : Option Lit
  full_name : Option Lit
  abbreviation : Option Lit
  deriving DecidableEq, Repr

/-- `map_team` from `balldontlie_ingestor.py` (lines 78-88); `_now_iso()` is
the explicit `now` parameter. -/
def map_team (t : TeamRecord) (now : String) : Row :=
  [ ("id", t.id),
    ("conference", t.conference),
    ("division", t.division),
    ("location", t.location),
    ("name", t.name),
    ("full_name", t.full_name),
    ("abbreviation", t.abbreviation),
    ("updated_at", some (.str now)) ]

/-- The teams dataset of `ingest_core` (lines 281-285): map every upstream
team and upsert the batch with conflict key `id`. -/
def runTeams (records : List TeamRecord) (now : String) (s : Store) : Store :=
  upsertMany ["id"] s (records.map (map_team · now))

/-- Two rows agree on every field outside `ex`, and carry the same field
names in the same order. -/
def RowEquivExcept (ex : List String) (r q : Row) : Prop :=
  List.Forall₂ (fun p₁ p₂ => p₁.1 = p₂.1 ∧ (p₁.1 ∉ ex → p₁.2 = p₂.2)) r q

/-- Pointwise `RowEquivExcept` between stores. -/
def StoreEquivExcept (ex : List String) (s₁ s₂ : Store) : Prop :=
  List.Forall₂ (RowEquivExcept ex) s₁ s₂

-- Basic upsert lemmas -------------------------------------------------------

theorem upsertRow_length_of_mem (ks : List String) (s : Store) (r : Row)
    (h : keyOf ks r ∈ s.map (keyOf ks)) :
    (upsertRow ks s r).length = s.length := by
  induction s with
  | nil => simp at h
  | cons q rest ih =>
    simp only [List.map_cons, List.mem_cons] at h
    by_cases hk : keyOf ks q = keyOf ks r
    · simp [upsertRow, hk]
    · have : keyOf ks r ∈ rest.map (keyOf ks) := by
        rcases h with h | h
        · exact absurd h.symm hk
        · exact h
      simp [upsertRow, hk, ih this]

/-- Upserting a row whose key is absent from the store appends it. -/
theorem upsertRow_fresh (ks : List String) (r : Row) :
    ∀ (s : Store), keyOf ks r ∉ s.map (keyOf ks) → upsertRow ks s r = s ++ [r] := by
  intro s
  induction s with
  | nil => intro _; simp [upsertRow]
  | cons q qs ihq =>
    intro hr
    have hq : keyOf ks q ≠ keyOf ks r := by
      intro he; exact hr (by simp [he])
    have hr' : keyOf ks r ∉ qs.map (keyOf ks) := by
      intro hm; exact hr (by simp [hm])
    simp [upsertRow, hq, ihq hr']

/-- Upserting rows whose keys are fresh and mutually distinct appends them. -/
theorem upsertMany_fresh (ks : List String) :
    ∀ (rows : List Row) (s : Store),
      (∀ r ∈ rows, keyOf ks r ∉ s.map (keyOf ks)) →
      (rows.map (keyOf ks)).Nodup →
      upsertMany ks s rows = s ++ rows := by
  intro rows
  induction rows with
  | nil => intro s _ _; simp [upsertMany]
  | cons r rest ih =>
    intro s hfresh hnd
    have hr : keyOf ks r ∉ s.map (keyOf ks) := hfresh r (by simp)
    have hstep : upsertRow ks s r = s ++ [r] := upsertRow_fresh ks r s hr
    have hnd' : (rest.map (keyOf ks)).Nodup := (List.nodup_cons.mp hnd).2
    have hhead : keyOf ks r ∉ rest.map (keyOf ks) := (List.nodup_cons.mp hnd).1
    have hfresh' : ∀ x ∈ rest, keyOf ks x ∉ (s ++ [r]).map (keyOf ks) := by
      intro x hx
      simp only [List.map_append, List.mem_append, List.map_cons, List.map_nil,
        List.mem_singleton, not_or]
      constructor
      · exact hfresh x (by simp [hx])
      · intro he
        exact hhead (by simpa [he] using List.mem_map_of_mem (keyOf ks) hx)
    calc upsertMany ks s (r :: rest)
        = upsertMany ks (upsertRow ks s r) rest := rfl
      _ = upsertMany ks (s ++ [r]) rest := by rw [hstep]
      _ = (s ++ [r]) ++ rest := ih (s ++ [r]) hfresh' hnd'
      _ = s ++ r :: rest := by simp

/-- Upserting a row whose key matches the head of the suffix replaces it in
place, provided no earlier stored row has that key. -/
theorem upsertRow_replace_at (ks : List String) (r q : Row)
    (hq : keyOf ks q = keyOf ks r) :
    ∀ (pre rest : Store), keyOf ks r ∉ pre.map (keyOf ks) →
      upsertRow ks (pre ++ q :: rest) r = pre ++ r :: rest := by
  intro pre
  induction pre with
  | nil => intro rest _; simp [upsertRow, hq]
  | cons p ps ih =>
    intro rest hr
    have hp : keyOf ks p ≠ keyOf ks r := by
      intro he; exact hr (by simp [he])
    have hr' : keyOf ks r ∉ ps.map (keyOf ks) := by
      intro hm; exact hr (by simp [hm])
    simp [upsertRow, hp, ih rest hr']

/-- Replaying rows whose conflict keys coincide pointwise with a block of
distinct-keyed stored rows overwrites that block in place. -/
theorem upsertMany_replace (ks : List String) :
    ∀ (rows₂ rows₁ : List Row) (pre : Store),
      rows₂.map (keyOf ks) = rows₁.map (keyOf ks) →
      (rows₁.map (keyOf ks)).Nodup →
      (∀ r ∈ rows₁, keyOf ks r ∉ pre.map (keyOf ks)) →
      upsertMany ks (pre ++ rows₁) rows₂ = pre ++ rows₂ := by
  intro rows₂
  induction rows₂ with
  | nil =>
    intro rows₁ pre hkeys _ _
    have : rows₁ = [] := by
      cases rows₁ with
      | nil => rfl
      | cons a l => simp at hkeys
    subst this; simp [upsertMany]
  | cons r₂ rest₂ ih =>
    intro rows₁ pre hkeys hnd hfresh
    cases rows₁ with
    | nil => simp at hkeys
    | cons r₁ rest₁ =>
      simp only [List.map_cons, List.cons.injEq] at hkeys
      obtain ⟨hk, hks⟩ := hkeys
      have hstep : upsertRow ks (pre ++ r₁ :: rest₁) r₂ = pre ++ r₂ :: rest₁ := by
        have : keyOf ks r₂ ∉ pre.map (keyOf ks) := by
          rw [hk]; exact hfresh r₁ (by simp)
        exact upsertRow_replace_at ks r₂ r₁ hk.symm pre rest₁ this
      have hnd1 : (rest₁.map (keyOf ks)).Nodup := (List.nodup_cons.mp hnd).2
      have hhead : keyOf ks r₁ ∉ rest₁.map (keyOf ks) := (List.nodup_cons.mp hnd).1
      have hfresh' : ∀ x ∈ rest₁, keyOf ks x ∉ (pre ++ [r₂]).map (keyOf ks) := by
        intro x hx
        simp only [List.map_append, List.mem_append, List.map_cons, List.map_nil,
          List.mem_singleton, not_or]
        refine ⟨hfresh x (by simp [hx]), ?_⟩
        intro he
        rw [hk] at he
        exact hhead (he ▸ List.mem_map_of_mem (keyOf ks) hx)
      calc upsertMany ks (pre ++ r₁ :: rest₁) (r₂ :: rest₂)
          = upsertMany ks (upsertRow ks (pre ++ r₁ :: rest₁) r₂) rest₂ := rfl
        _ = upsertMany ks ((pre ++ [r₂]) ++ rest₁) rest₂ := by rw [hstep]; simp
        _ = (pre ++ [r₂]) ++ rest₂ := ih rest₁ (pre ++ [r₂]) hks hnd1 hfresh'
        _ = pre ++ r₂ :: rest₂ := by simp

-- C1: idempotence of re-ingestion ------------------------------------------

theorem keyOf_map_team (t : TeamRecord) (now : String) :
    keyOf ["id"] (map_team t now) = [t.id] := by
  simp [keyOf, map_team, getField]

theorem map_team_equiv (t : TeamRecord) (now₁ now₂ : String) :
    RowEquivExcept ["updated_at"] (map_team t now₂) (map_team t now₁) := by
  unfold RowEquivExcept map_team
  refine .cons (by simp) (.cons (by simp) (.cons (by simp) (.cons (by simp)
    (.cons (by simp) (.cons (by simp) (.cons (by simp)
    (.cons (by simp) .nil)))))))

/-- A one-team upstream fixture used to exhibit timestamp drift. -/
def teamFixtureC1 : List TeamRecord :=
  [⟨some (.int 1), some (.str "East"), none, some (.str "Dallas"),
    some (.str "Cowboys"), some (.str "Dallas Cowboys"), some (.str "DAL")⟩]

/-- C1 counterexample: ingesting the identical upstream team fixture twice,
with the wall clock having advanced between the runs, leaves a persisted state
that differs from the state after the first run — `map_team` stamps every row
with `_now_iso()`, so `updated_at` drifts.  The claim's "identical persisted
state ... same field values (no drift)" is therefore false. -/
theorem rerun_updated_at_drift :
    runTeams teamFixtureC1 "2025-01-02T00:00:00+00:00"
        (runTeams teamFixtureC1 "2025-01-01T00:00:00+00:00" []) ≠
      runTeams teamFixtureC1 "2025-01-01T00:00:00+00:00" [] := by
  decide

/-- C1 (amended): for an upstream fixture with pairwise-distinct natural keys,
re-running the teams ingestion yields the same row count and identical values
in every field except the audit timestamp `updated_at`, which carries the
second run's clock reading; the upsert keyed on `id` creates no duplicates. -/
theorem teams_rerun_same_rows_except_updated_at
    (records : List TeamRecord) (now₁ now₂ : String)
    (hnd : (records.map TeamRecord.id).Nodup) :
    (runTeams records now₂ (runTeams records now₁ [])).length =
        (runTeams records now₁ []).length ∧
      StoreEquivExcept ["updated_at"]
        (runTeams records now₂ (runTeams records now₁ []))
        (runTeams records now₁ []) := by
  have hkeys : ∀ now, (records.map (map_team · now)).map (keyOf ["id"]) =
      records.map (fun t => [t.id]) := by
    intro now
    rw [List.map_map]
    exact List.map_congr_left fun t _ => keyOf_map_team t now
  have hndk : (records.map (fun t => [t.id])).Nodup := by
    have : records.map (fun t => [t.id]) =
        (records.map TeamRecord.id).map (fun o => [o]) := by
      rw [List.map_map]; rfl
    rw [this]
    exact hnd.map (fun a b h => by simpa using h)
  have h₁ : runTeams records now₁ [] = records.map (map_team · now₁) := by
    unfold runTeams
    have := upsertMany_fresh ["id"] (records.map (map_team · now₁)) []
      (by intro r _; simp) (by rw [hkeys]; exact hndk)
    simpa using this
  have h₂ : runTeams records now₂ (records.map (map_team · now₁)) =
      records.map (map_team · now₂) := by
    unfold runTeams
    have := upsertMany_replace ["id"] (records.map (map_team · now₂))
      (records.map (map_team · now₁)) []
      (by rw [hkeys, hkeys]) (by rw [hkeys]; exact hndk) (by intro r _; simp)
    simpa using this
  rw [h₁, h₂]
  constructor
  · simp
  · unfold StoreEquivExcept
    rw [List.forall₂_map_right_iff, List.forall₂_map_left_iff]
    exact List.forall₂_same.mpr fun t _ => map_team_equiv t now₁ now₂

/-- C1 witness: the amended re-run guarantee at a concrete two-team fixture. -/
theorem teams_rerun_witness :
    (runTeams [⟨some (.int 1), none, none, none, none, none, none⟩,
               ⟨some (.int 2), none, none, none, none, none, none⟩] "B"
        (runTeams [⟨some (.int 1), none, none, none, none, none, none⟩,
                   ⟨some (.int 2), none, none, none, none, none, none⟩] "A" [])).length =
      (runTeams [⟨some (.int 1), none, none, none, none, none, none⟩,
                 ⟨some (.int 2), none, none, none, none, none, none⟩] "A" []).length ∧
    StoreEquivExcept ["updated_at"]
      (runTeams [⟨some (.int 1), none, none, none, none, none, none⟩,
                 ⟨some (.int 2), none, none, none, none, none, none⟩] "B"
        (runTeams [⟨some (.int 1), none, none, none, none, none, none⟩,
                   ⟨some (.int 2), none, none, none, none, none, none⟩] "A" []))
      (runTeams [⟨some (.int 1), none, none, none, none, none, none⟩,
                 ⟨some (.int 2), none, none, none, none, none, none⟩] "A" []) :=
  teams_rerun_same_rows_except_updated_at _ "A" "B" (by decide)

-- Validator / chunking (`_chunked`, `_valid_rows`) -------------------------

/-- `_chunked` from `balldontlie_ingestor.py` (lines 35-43): accumulate a
buffer, emit it whenever it reaches `size`, emit the remainder at the end. -/
def chunkedGo (size : Nat) : List α → List α → List (List α)
  | buf, [] => if buf.isEmpty then [] else [buf]
  | buf, it :: rest =>
    if size ≤ (buf ++ [it]).length then (buf ++ [it]) :: chunkedGo size [] rest
    else chunkedGo size (buf ++ [it]) rest

def chunked (items : List α) (size : Nat) : List (List α) :=
  chunkedGo size [] items

/-- `mapped.get(f) is None` for some required field `f`. -/
def rowInvalid (required : List String) (r : Row) : Bool :=
  required.any fun f => (getField r f).isNone

/-- The recursion of `_valid_rows` (lines 46-65): `invalid` is the running
count of dropped rows.  The Python generator is embedded as the pair of
(rows yielded before termination, whether `ValueError` was raised). -/
def validRowsGo (mapper : Row → Row) (required : List String) (thr : Nat) :
    Nat → List Row → List Row × Bool
  | _, [] => ([], false)
  | invalid, raw :: rest =>
    if rowInvalid required (mapper raw) then
      if thr < invalid + 1 then ([], true)
      else validRowsGo mapper required thr (invalid + 1) rest
    else
      ((mapper raw) :: (validRowsGo mapper required thr invalid rest).1,
        (validRowsGo mapper required thr invalid rest).2)

/-- `_valid_rows(rows, mapper, required_fields, abort_threshold)`; a missing
`mapper` defaults to the identity. -/
def valid_rows (rows : List Row) (mapper : Option (Row → Row))
    (required : List String) (thr : Nat := 25) : List Row × Bool :=
  validRowsGo (mapper.getD id) required thr 0 rows

theorem length_filter_not (p : α → Bool) (l : List α) :
    (l.filter fun a => !p a).length = l.length - (l.filter p).length := by
  induction l with
  | nil => rfl
  | cons a l ih =>
    have hle : (l.filter p).length ≤ l.length := List.length_filter_le p l
    cases h : p a
    · simp [List.filter_cons, h, ih]
      omega
    · simp [List.filter_cons, h, ih]

theorem validRowsGo_spec (mapper : Row → Row) (required : List String) (thr : Nat) :
    ∀ (rows : List Row) (c : Nat), c ≤ thr →
      ((validRowsGo mapper required thr c rows).2 = true ↔
        thr < c + ((rows.map mapper).filter (rowInvalid required)).length) ∧
      (c + ((rows.map mapper).filter (rowInvalid required)).length ≤ thr →
        (validRowsGo mapper required thr c rows).1 =
          (rows.map mapper).filter fun r => !(rowInvalid required r)) := by
  intro rows
  induction rows with
  | nil =>
    intro c hc
    constructor
    · simp only [validRowsGo, List.map_nil, List.filter_nil, List.length_nil, Nat.add_zero]
      constructor
      · intro h; exact absurd h (by simp)
      · intro h; omega
    · intro _; simp [validRowsGo]
  | cons raw rest ih =>
    intro c hc
    cases hbad : rowInvalid required (mapper raw) with
    | true =>
      by_cases habort : thr < c + 1
      · constructor
        · simp [validRowsGo, hbad, habort, List.filter_cons]
          omega
        · intro hle
          exfalso
          simp [List.filter_cons, hbad] at hle
          omega
      · have h := ih (c + 1) (by omega)
        constructor
        · simp [validRowsGo, hbad, habort, List.filter_cons, h.1]
          omega
        · intro hle
          simp [List.filter_cons, hbad] at hle
          simp [validRowsGo, hbad, habort, List.filter_cons]
          rw [h.2 (by omega)]
    | false =>
      have h := ih c hc
      constructor
      · simp [validRowsGo, hbad, List.filter_cons, h.1]
      · intro hle
        simp [List.filter_cons, hbad] at hle
        simp [validRowsGo, hbad, List.filter_cons]
        rw [h.2 (by simpa using hle)]

/-- C4: for a feed of `M` rows of which `N` are missing a required field, the
Validator raises its abort exactly when `N` exceeds `abort_threshold` (never
before), and when it does not abort it forwards exactly the `M - N` valid
mapped rows, unchanged and in input order. -/
theorem validator_forwards_and_aborts (rows : List Row) (mapper : Row → Row)
    (required : List String) (thr : Nat) :
    ((valid_rows rows (some mapper) required thr).2 = true ↔
      thr < ((rows.map mapper).filter (rowInvalid required)).length) ∧
    (((rows.map mapper).filter (rowInvalid required)).length ≤ thr →
      (valid_rows rows (some mapper) required thr).1 =
          ((rows.map mapper).filter fun r => !(rowInvalid required r)) ∧
        (valid_rows rows (some mapper) required thr).1.length =
          rows.length - ((rows.map mapper).filter (rowInvalid required)).length) := by
  have h := validRowsGo_spec mapper required thr rows 0 (Nat.zero_le thr)
  constructor
  · simpa [valid_rows] using h.1
  · intro hle
    have hout := h.2 (by simpa using hle)
    refine ⟨by simpa [valid_rows] using hout, ?_⟩
    have : (valid_rows rows (some mapper) required thr).1 =
        ((rows.map mapper).filter fun r => !(rowInvalid required r)) := by
      simpa [valid_rows] using hout
    rw [this, length_filter_not]
    simp

/-- C4 witness: a concrete feed of 4 rows with 1 invalid row and threshold 2:
no abort, and exactly the 3 valid rows are forwarded in order. -/
theorem validator_witness :
    (valid_rows [[("player_id", some (.int 7))], ([] : Row),
        [("player_id", some (.int 8))], [("player_id", some (.int 9))]]
      (some id) ["player_id"] 2).1 =
        [[("player_id", some (.int 7))], [("player_id", some (.int 8))],
          [("player_id", some (.int 9))]] ∧
    (valid_rows [[("player_id", some (.int 7))], ([] : Row),
        [("player_id", some (.int 8))], [("player_id", some (.int 9))]]
      (some id) ["player_id"] 2).1.length = 4 - 1 := by
  have h := (validator_forwards_and_aborts
    [[("player_id", some (.int 7))], ([] : Row),
      [("player_id", some (.int 8))], [("player_id", some (.int 9))]]
    id ["player_id"] 2).2 (by decide)
  constructor
  · rw [h.1]; decide
  · rw [h.2]; decide

-- C3: required fields reaching the Upsert Sink ------------------------------

theorem mem_chunkedGo (size : Nat) :
    ∀ (l buf : List α) (c : List α), c ∈ chunkedGo size buf l →
      ∀ x ∈ c, x ∈ buf ++ l := by
  intro l
  induction l with
  | nil =>
    intro buf c hc x hx
    by_cases hb : buf.isEmpty
    · simp [chunkedGo, hb] at hc
    · simp [chunkedGo, hb] at hc
      subst hc
      simpa using hx
  | cons it rest ih =>
    intro buf c hc x hx
    by_cases hsz : size ≤ (buf ++ [it]).length
    · simp only [chunkedGo, hsz, if_true, List.mem_cons] at hc
      rcases hc with rfl | hc
      · simp only [List.mem_append, List.mem_singleton] at hx
        simp only [List.mem_append, List.mem_cons]
        tauto
      · have := ih [] c hc x hx
        simp at this
        simp [this]
    · simp only [chunkedGo, hsz, if_false] at hc
      have := ih (buf ++ [it]) c hc x hx
      simpa using this

theorem mem_chunked (size : Nat) (l : List α) (c : List α) (hc : c ∈ chunked l size)
    (x : α) (hx : x ∈ c) : x ∈ l := by
  simpa using mem_chunkedGo size l [] c hc x hx

/-- Rows forwarded by the Validator are never invalid. -/
theorem validRowsGo_all_valid (mapper : Row → Row) (required : List String) (thr : Nat) :
    ∀ (rows : List Row) (c : Nat),
      ∀ r ∈ (validRowsGo mapper required thr c rows).1, rowInvalid required r = false := by
  intro rows
  induction rows with
  | nil => intro c r hr; simp [validRowsGo] at hr
  | cons raw rest ih =>
    intro c r hr
    cases hbad : rowInvalid required (mapper raw) with
    | true =>
      by_cases habort : thr < c + 1
      · simp [validRowsGo, hbad, habort] at hr
      · simp only [validRowsGo, hbad, if_true, habort, if_false] at hr
        exact ih (c + 1) r hr
    | false =>
      simp only [validRowsGo, hbad, if_false, List.mem_cons] at hr
      cases hr with
      | head => exact hbad
      | tail _ htail => exact ih c r htail

/-- C3 (amended): every row of every batch that the validated pipelines
(`_valid_rows` composed with `_chunked`) hand to the Upsert Sink has all of
its required fields non-null. -/
theorem validated_rows_reaching_sink_non_null (rows : List Row) (mapper : Row → Row)
    (required : List String) (thr size : Nat) (c : List Row) (r : Row) (f : String)
    (hc : c ∈ chunked (valid_rows rows (some mapper) required thr).1 size)
    (hr : r ∈ c) (hf : f ∈ required) : getField r f ≠ none := by
  have hmem : r ∈ (valid_rows rows (some mapper) required thr).1 :=
    mem_chunked size _ c hc r hr
  have hvalid : rowInvalid required r = false :=
    validRowsGo_all_valid mapper required thr rows 0 r (by simpa [valid_rows] using hmem)
  intro hnone
  have : rowInvalid required r = true := by
    unfold rowInvalid
    rw [List.any_eq_true]
    exact ⟨f, hf, by simp [hnone]⟩
  rw [this] at hvalid
  exact Bool.true_eq_false.mp hvalid

/-- C3 witness: a concrete validated batch whose row has `player_id` set. -/
theorem validated_rows_non_null_witness :
    (getField [("player_id", some (.int 1))] "player_id" ≠ none) ∧
      [[("player_id", some (Lit.int 1))]] ∈
        chunked (valid_rows [[("player_id", some (.int 1))], ([] : Row)]
          (some id) ["player_id"] 25).1 500 :=
  ⟨validated_rows_reaching_sink_non_null
      [[("player_id", some (.int 1))], ([] : Row)] id ["player_id"] 25 500
      [[("player_id", some (Lit.int 1))]] [("player_id", some (.int 1))] "player_id"
      (by decide) (by decide) (by decide),
    by decide⟩

/-- Reference to a nested `player` object; only its `id` is read. -/
structure PlayerRef where
  id : Option Lit
  deriving DecidableEq, Repr

/-- Upstream player-season-stats record
(`balldontlie_ingestor.map_player_season_stats`, lines 141-163). -/
structure PlayerSeasonRecord where
  player : Option PlayerRef
  season : Option Lit
  postseason : Option Lit
  games_played : Option Lit
  passing_completions : Option Lit
  passing_attempts : Option Lit
  passing_yards : Option Lit
  passing_touchdowns : Option Lit
  passing_interceptions : Option Lit
  qbr : Option Lit
  rushing_attempts : Option Lit
  rushing_yards : Option Lit
  rushing_touchdowns : Option Lit
  receptions : Option Lit
  receiving_yards : Option Lit
  receiving_touchdowns : Option Lit
  receiving_targets : Option Lit
  deriving DecidableEq, Repr

/-- `map_player_season_stats` (lines 141-163): a missing nested `player`
yields `player_id = None`; `postseason` defaults to `False`. -/
def map_player_season_stats (s : PlayerSeasonRecord) (now : String) : Row :=
  [ ("player_id", s.player.bind PlayerRef.id),
    ("season", s.season),
    ("postseason", some (s.postseason.getD (.bool false))),
    ("games_played", s.games_played),
    ("passing_completions", s.passing_completions),
    ("passing_attempts", s.passing_attempts),
    ("passing_yards", s.passing_yards),
    ("passing_touchdowns", s.passing_touchdowns),
    ("passing_interceptions", s.passing_interceptions),
    ("qbr", s.qbr),
    ("rushing_attempts", s.rushing_attempts),
    ("rushing_yards", s.rushing_yards),
    ("rushing_touchdowns", s.rushing_touchdowns),
    ("receptions", s.receptions),
    ("receiving_yards", s.receiving_yards),
    ("receiving_touchdowns", s.receiving_touchdowns),
    ("receiving_targets", s.receiving_targets),
    ("updated_at", some (.str now)) ]

/-- The season-stats branch of `ingest_stats_and_advanced` (lines 326-334):
mapped rows are chunked and handed to `supabase.upsert` directly, with no
`_valid_rows` stage in between. -/
def seasonStatsUpsertChunks (records : List PlayerSeasonRecord) (now : String)
    (batch : Nat) : List (List Row) :=
  chunked (records.map (map_player_season_stats · now)) batch

/-- A season-stats record with no nested `player` object at all. -/
def blankSeasonRecord : PlayerSeasonRecord :=
  ⟨none, none, none, none, none, none, none, none, none, none, none, none,
    none, none, none, none, none⟩

/-- C3 counterexample: the season-stats dataset forwards a row whose
`player_id` — a field of its conflict key `player_id,season,postseason` — is
null straight to the Upsert Sink, because that branch never calls
`_valid_rows`.  The claim "a NormalizedRow with any null required field is
never forwarded to the Upsert Sink" is therefore false for this dataset. -/
theorem season_stats_null_required_field_reaches_sink :
    ∃ c ∈ seasonStatsUpsertChunks [blankSeasonRecord] "2025-01-01T00:00:00+00:00" 500,
      ∃ r ∈ c, getField r "player_id" = none := by
  decide

-- C6: RateLimiter (`balldontlie_client.py`, lines 18-36) --------------------

/-- `RateLimiter` state: the configured minimum interval and `_last_ts`
(0.0 before the first permitted call).  Times are rationals standing for
`time.time()` readings. -/
structure RateLimiter where
  min_interval_seconds : ℚ
  last_ts : ℚ
  deriving DecidableEq, Repr

/-- One `wait()` call entered at wall-clock time `now`, returning the slept
duration and the updated limiter.  `time.sleep` is idealized as advancing the
clock by exactly the requested duration, so the `time.time()` reading taken
at line 36 is `now + slept`. -/
def RateLimiter.waitAt (rl : RateLimiter) (now : ℚ) : ℚ × RateLimiter :=
  if rl.last_ts ≤ 0 then (0, { rl with last_ts := now })
  else
    let elapsed := now - rl.last_ts
    let remaining := rl.min_interval_seconds - elapsed
    if 0 < remaining then (remaining, { rl with last_ts := now + remaining })
    else (0, { rl with last_ts := now })

/-- Consecutive `wait()` calls after the first: each call arrives `δ` seconds
after the previous call returned (`δ ≥ 0` for a sequential caller).  Produces
the (slept, recorded `_last_ts`) pair of every call. -/
def runWaitGo (rl : RateLimiter) : List ℚ → List (ℚ × ℚ)
  | [] => []
  | δ :: rest =>
    ((rl.waitAt (rl.last_ts + δ)).1, ((rl.waitAt (rl.last_ts + δ)).2).last_ts) ::
      runWaitGo (rl.waitAt (rl.last_ts + δ)).2 rest

/-- A run of `K = deltas.length + 1` consecutive `wait()` calls on one fresh
limiter: the first call arrives at time `a₀`. -/
def runWait (rl₀ : RateLimiter) (a₀ : ℚ) (deltas : List ℚ) : List (ℚ × ℚ) :=
  ((rl₀.waitAt a₀).1, ((rl₀.waitAt a₀).2).last_ts) ::
    runWaitGo (rl₀.waitAt a₀).2 deltas

theorem waitAt_step (rl : RateLimiter) (δ : ℚ) (_ht : 0 ≤ rl.min_interval_seconds)
    (hpos : 0 < rl.last_ts) (_hδ : 0 ≤ δ) :
    rl.last_ts + rl.min_interval_seconds ≤ ((rl.waitAt (rl.last_ts + δ)).2).last_ts ∧
      0 < ((rl.waitAt (rl.last_ts + δ)).2).last_ts ∧
      ((rl.waitAt (rl.last_ts + δ)).2).min_interval_seconds = rl.min_interval_seconds := by
  unfold RateLimiter.waitAt
  have hnot : ¬ rl.last_ts ≤ 0 := not_le.mpr hpos
  by_cases hrem : 0 < rl.min_interval_seconds - (rl.last_ts + δ - rl.last_ts)
  · simp only [hnot, if_false, hrem, if_true]
    constructor
    · ring_nf; linarith
    · constructor
      · ring_nf; linarith
      · trivial
  · simp only [hnot, if_false, hrem, if_true]
    constructor
    · ring_nf; nlinarith [not_lt.mp hrem]
    · constructor
      · linarith
      · trivial

theorem runWaitGo_chain (t : ℚ) (ht : 0 ≤ t) :
    ∀ (deltas : List ℚ) (rl : RateLimiter) (p : ℚ × ℚ),
      rl.min_interval_seconds = t → 0 < rl.last_ts → p.2 = rl.last_ts →
      (∀ δ ∈ deltas, 0 ≤ δ) →
      List.Chain' (fun a b => a.2 + t ≤ b.2) (p :: runWaitGo rl deltas) := by
  intro deltas
  induction deltas with
  | nil => intro rl p _ _ _ _; simp [runWaitGo]
  | cons δ rest ih =>
    intro rl p hmin hpos hp hδ
    have hstep := waitAt_step rl δ (hmin ▸ ht) hpos (hδ δ (by simp))
    rw [runWaitGo]
    refine List.Chain'.cons ?_ ?_
    · rw [hp, ← hmin]; exact hstep.1
    · exact ih ((rl.waitAt (rl.last_ts + δ)).2) _ (hstep.2.2.trans hmin) hstep.2.1 rfl
        (fun x hx => hδ x (by simp [hx]))

theorem runWaitGo_length (rl : RateLimiter) (deltas : List ℚ) :
    (runWaitGo rl deltas).length = deltas.length := by
  induction deltas generalizing rl with
  | nil => rfl
  | cons δ rest ih => simp [runWaitGo, ih]

/-- C6: across `K = deltas.length + 1` consecutive `wait()` calls on a fresh
limiter with `min_interval_seconds = t` (first call at clock `a₀ > 0`, each
later call issued `δ ≥ 0` after the previous one returned): the run produces
one (slept, recorded-timestamp) pair per call, the first call sleeps 0
(never blocks), and each recorded timestamp — the `_last_ts` written after
each permitted call — is at least `t` after the previous one. -/
theorem rate_limiter_spacing (t a₀ : ℚ) (deltas : List ℚ)
    (ht : 0 ≤ t) (ha : 0 < a₀) (hδ : ∀ δ ∈ deltas, 0 ≤ δ) :
    (runWait ⟨t, 0⟩ a₀ deltas).length = deltas.length + 1 ∧
      (runWait ⟨t, 0⟩ a₀ deltas).headI.1 = 0 ∧
      List.Chain' (fun a b => a.2 + t ≤ b.2) (runWait ⟨t, 0⟩ a₀ deltas) := by
  have hfirst : (RateLimiter.waitAt ⟨t, 0⟩ a₀) = (0, ⟨t, a₀⟩) := by
    simp [RateLimiter.waitAt]
  refine ⟨?_, ?_, ?_⟩
  · simp [runWait, runWaitGo_length]
  · simp [runWait, hfirst]
  · unfold runWait
    rw [hfirst]
    exact runWaitGo_chain t ht deltas ⟨t, a₀⟩ (0, a₀) rfl ha rfl hδ

/-- C6 witness: three consecutive calls with `t = 2`, first at clock 5, the
later calls issued 0 and 3 seconds after the previous return. -/
theorem rate_limiter_spacing_witness :
    (runWait ⟨2, 0⟩ 5 [0, 3]).length = 2 + 1 ∧
      (runWait ⟨2, 0⟩ 5 [0, 3]).headI.1 = 0 ∧
      List.Chain' (fun a b => a.2 + 2 ≤ b.2) (runWait ⟨2, 0⟩ 5 [0, 3]) :=
  rate_limiter_spacing 2 5 [0, 3] (by norm_num) (by norm_num)
    (by intro δ hδ; rcases List.mem_cons.mp hδ with rfl | hδ
        · norm_num
        · rcases List.mem_singleton.mp hδ with rfl; norm_num)

-- C5/C7/C8: Paginated Fetch Client (`balldontlie_client.py`) ----------------

/-- Decimal digits to a number, as Python `int()` reads them. -/
def digsToNat (ds : List Char) : Option Nat :=
  if ds ≠ [] ∧ ds.all Char.isDigit then
    some (ds.foldl (fun a c => a * 10 + (c.toNat - 48)) 0)
  else none

/-- Python `int(str)`: optional sign then decimal digits. -/
def pyStrToInt (s : String) : Option Int :=
  match s.data with
  | '-' :: ds => (digsToNat ds).map (fun n => -(n : Int))
  | ds => (digsToNat ds).map (fun n => (n : Int))

/-- `int(x)` on a literal; `none` models the `ValueError` on a malformed
string.  (`int(True) = 1` in Python.) -/
def pyToInt : Lit → Option Int
  | .int i => some i
  | .str s => pyStrToInt s
  | .bool b => some (if b then 1 else 0)

/-- The `meta` envelope object; only `next_cursor` is read (line 112). -/
structure Meta where
  next_cursor : Option Lit
  deriving Repr

/-- A successful response payload `{data: [...], meta: {...}}`; a missing
`data` key is the empty list (line 107's default). -/
structure Payload (π : Type) where
  data : List π
  meta : Option Meta

/-- The `while True` pagination loop of `paginate` (lines 98-115), driven by
a `server` giving the payload for each cursor; `fuel` bounds the number of
page fetches, `none` meaning the fuel ran out before the loop broke.
Yielded records accumulate in upstream page order; the loop breaks when
`next_cursor` is absent or falsy, else continues with `cursor = int(nc)`. -/
def paginateGo (server : Option Int → Payload π) : Nat → Option Int → Option (List π)
  | 0, _ => none
  | fuel + 1, cursor =>
    let payload := server cursor
    match (payload.meta.getD ⟨none⟩).next_cursor with
    | none => some payload.data
    | some v =>
      if v.truthy then
        match pyToInt v with
        | some c => (paginateGo server fuel (some c)).map (fun rest => payload.data ++ rest)
        | none => none
      else some payload.data

/-- `paginate` starts with no cursor. -/
def paginate (server : Option Int → Payload π) (fuel : Nat) : Option (List π) :=
  paginateGo server fuel none

/-- The upstream of the C5 scenario: page 1 (no cursor) returns two records
and `next_cursor = "7"`; the page at `cursor = 7` returns one record and no
`next_cursor`. -/
def scenServer (r₁ r₂ r₃ : π) : Option Int → Payload π
  | none => ⟨[r₁, r₂], some ⟨some (.str "7")⟩⟩
  | some c => if c = 7 then ⟨[r₃], some ⟨none⟩⟩ else ⟨[], none⟩

/-- C5: against that upstream, `paginate` yields exactly the three records in
upstream page order and then stops (the loop breaks: the result is `some`,
independent of any remaining fuel). -/
theorem paginate_three_records_then_stops (r₁ r₂ r₃ : π) (extra : Nat) :
    paginate (scenServer r₁ r₂ r₃) (extra + 2) = some [r₁, r₂, r₃] := by
  have h7 : pyStrToInt "7" = some 7 := by decide
  have hsecond : ∀ fuel, paginateGo (scenServer r₁ r₂ r₃) (fuel + 1) (some 7) =
      some [r₃] := by
    intro fuel
    simp [paginateGo, scenServer]
  show paginateGo (scenServer r₁ r₂ r₃) (extra + 2) none = some [r₁, r₂, r₃]
  have : extra + 2 = (extra + 1) + 1 := rfl
  rw [this, paginateGo]
  simp only [scenServer, Option.getD, Lit.truthy, pyToInt, h7]
  rw [if_pos (by decide)]
  simp [hsecond extra]

-- `_request` (lines 67-96): retry loop with transport and HTTP handling.

/-- What one attempt of `self._session.request(...)` produces: a raised
transport exception, or an HTTP response with its status, optional
`Retry-After` header (already parsed to a duration) and parsed JSON body. -/
inductive HttpOutcome (π : Type) where
  | transportErr
  | resp (status : Nat) (retryAfter : Option ℚ) (payload : π)

/-- How a `_request` call fails: re-raising the transport exception (line 83),
`BallDontLieError("HTTP {status} ...")` (line 92), or
`BallDontLieError("Request failed ...")` after the loop ends (line 96). -/
inductive ReqError where
  | transport
  | http (status : Nat)
  | exhausted
  deriving DecidableEq, Repr

/-- The `for attempt in range(max_retries + 1)` loop of `_request`: `oracle`
gives each attempt's outcome, `fuel` is the number of loop iterations left.
Returns the result together with the list of `_sleep` durations performed, in
order.  (`self._rl.wait()` paces each attempt; its timing is modelled
separately by `RateLimiter`.)  requests' `resp.ok` is `status < 400`. -/
def requestGo (oracle : Nat → HttpOutcome π) (maxRetries : Nat) (backoff : ℚ) :
    Nat → Nat → Except ReqError π × List ℚ
  | _, 0 => (.error .exhausted, [])
  | attempt, fuel + 1 =>
    match oracle attempt with
    | .transportErr =>
      if maxRetries ≤ attempt then (.error .transport, [])
      else
        ((requestGo oracle maxRetries backoff (attempt + 1) fuel).1,
          backoff :: (requestGo oracle maxRetries backoff (attempt + 1) fuel).2)
    | .resp s ra payload =>
      if s = 429 then
        ((requestGo oracle maxRetries backoff (attempt + 1) fuel).1,
          (ra.getD backoff) :: (requestGo oracle maxRetries backoff (attempt + 1) fuel).2)
      else if ¬ s < 400 then (.error (.http s), [])
      else (.ok payload, [])

/-- One `_request` call: `backoff = 0.5`, attempts `0 .. max_retries`. -/
def clientRequest (oracle : Nat → HttpOutcome π) (maxRetries : Nat) :
    Except ReqError π × List ℚ :=
  requestGo oracle maxRetries (1/2) 0 (maxRetries + 1)

theorem requestGo_all_transport (oracle : Nat → HttpOutcome π) (maxRetries : Nat)
    (backoff : ℚ) :
    ∀ (fuel attempt : Nat), attempt + fuel = maxRetries + 1 → attempt ≤ maxRetries →
      (∀ i, attempt ≤ i → i ≤ maxRetries → oracle i = .transportErr) →
      requestGo oracle maxRetries backoff attempt fuel =
        (.error .transport, List.replicate (maxRetries - attempt) backoff) := by
  intro fuel
  induction fuel with
  | zero => intro attempt h hle _; omega
  | succ f ih =>
    intro attempt h hle hfail
    have hor : oracle attempt = .transportErr := hfail attempt le_rfl hle
    rw [requestGo, hor]
    by_cases hlast : maxRetries ≤ attempt
    · have : maxRetries - attempt = 0 := by omega
      simp [hlast, this]
    · have hrec := ih (attempt + 1) (by omega) (by omega)
        (fun i hi hi2 => hfail i (by omega) hi2)
      have : maxRetries - attempt = (maxRetries - (attempt + 1)) + 1 := by omega
      simp [hlast, hrec, this, List.replicate_succ]

/-- C7: when every attempt fails at the transport level, `_request` performs
exactly `max_retries + 1` attempts, sleeping the fixed `0.5`-second backoff
between consecutive attempts (`max_retries` sleeps), and then fails the whole
fetch by re-raising the transport error. -/
theorem transport_failure_retries_then_raises (oracle : Nat → HttpOutcome π)
    (maxRetries : Nat) (hfail : ∀ i ≤ maxRetries, oracle i = .transportErr) :
    clientRequest oracle maxRetries =
      (.error .transport, List.replicate maxRetries (1/2 : ℚ)) := by
  have := requestGo_all_transport oracle maxRetries (1/2) (maxRetries + 1) 0
    (by omega) (by omega) (fun i _ hi => hfail i hi)
  simpa [clientRequest] using this

/-- C7 witness: with `max_retries = 3` and every attempt timing out, the call
makes 4 attempts, sleeps 0.5 s three times, and raises the transport error. -/
theorem transport_failure_witness :
    clientRequest (π := Unit) (fun _ => .transportErr) 3 =
      (.error .transport, List.replicate 3 (1/2 : ℚ)) :=
  transport_failure_retries_then_raises (fun _ => .transportErr) 3 (fun _ _ => rfl)

/-- C8: (a) an HTTP 429 makes `_request` sleep exactly the provider's
`Retry-After` duration and retry the same request (the cursor lives one level
up, in `paginate`, and is untouched); (b) with no `Retry-After` header the
fixed `0.5` backoff is slept instead; (c) any other non-success status raises
`BallDontLieError` carrying that status immediately — no retry, no sleep. -/
theorem http429_honored_and_other_errors_immediate (oracle : Nat → HttpOutcome π)
    (maxRetries : Nat) :
    (∀ (ra : ℚ) (p₀ p : π), 1 ≤ maxRetries →
      oracle 0 = .resp 429 (some ra) p₀ → oracle 1 = .resp 200 none p →
      clientRequest oracle maxRetries = (.ok p, [ra])) ∧
    (∀ (p₀ p : π), 1 ≤ maxRetries →
      oracle 0 = .resp 429 none p₀ → oracle 1 = .resp 200 none p →
      clientRequest oracle maxRetries = (.ok p, [(1/2 : ℚ)])) ∧
    (∀ (s : Nat) (ra : Option ℚ) (p : π), s ≠ 429 → ¬ s < 400 →
      oracle 0 = .resp s ra p →
      clientRequest oracle maxRetries = (.error (.http s), [])) := by
  refine ⟨?_, ?_, ?_⟩
  · intro ra p₀ p hmr h0 h1
    obtain ⟨m, rfl⟩ : ∃ m, maxRetries = m + 1 := ⟨maxRetries - 1, by omega⟩
    show requestGo oracle (m + 1) (1/2) 0 (m + 1 + 1) = (.ok p, [ra])
    rw [requestGo, h0]
    simp only [if_pos rfl]
    rw [requestGo, h1]
    norm_num
  · intro p₀ p hmr h0 h1
    obtain ⟨m, rfl⟩ : ∃ m, maxRetries = m + 1 := ⟨maxRetries - 1, by omega⟩
    show requestGo oracle (m + 1) (1/2) 0 (m + 1 + 1) = (.ok p, [(1/2 : ℚ)])
    rw [requestGo, h0]
    simp only [if_pos rfl]
    rw [requestGo, h1]
    norm_num
  · intro s ra p hs hok h0
    show requestGo oracle maxRetries (1/2) 0 (maxRetries + 1) = (.error (.http s), [])
    rw [requestGo, h0]
    simp [hs, hok]

/-- C8 witness: a concrete oracle answering 429 with `Retry-After: 7` then
succeeding, and one answering 500. -/
theorem http429_witness :
    clientRequest
        (fun a => if a = 0 then HttpOutcome.resp 429 (some 7) 0 else .resp 200 none 42) 3 =
      (.ok (42 : Nat), [(7 : ℚ)]) ∧
    clientRequest (fun _ => (HttpOutcome.resp 500 none (0 : Nat))) 3 =
      (.error (.http 500), []) := by
  constructor
  · exact (http429_honored_and_other_errors_immediate
      (fun a => if a = 0 then HttpOutcome.resp 429 (some 7) 0 else .resp 200 none 42)
      3).1 7 0 42 (by norm_num) (by norm_num) (by norm_num)
  · exact (http429_honored_and_other_errors_immediate
      (fun _ => (HttpOutcome.resp 500 none (0 : Nat))) 3).2.2 500 none 0
      (by norm_num) (by norm_num) rfl

-- Decimal-rendering facts, needed because `_get_best_props` keys its dict by
-- the f-string `f"{player_id}|{prop_type}"`. ---------------------------------

/-- Fuel-free mirror of `Nat.toDigitsCore 10`. -/
def natDigs (n : Nat) : List Char :=
  if h : n / 10 = 0 then [Nat.digitChar (n % 10)]
  else natDigs (n / 10) ++ [Nat.digitChar (n % 10)]
termination_by n
decreasing_by
  exact Nat.div_lt_self (Nat.pos_of_ne_zero (fun h0 => h (by simp [h0]))) (by omega)

theorem toDigitsCore_eq_natDigs :
    ∀ (fuel n : Nat) (acc : List Char), n < fuel →
      Nat.toDigitsCore 10 fuel n acc = natDigs n ++ acc := by
  intro fuel
  induction fuel with
  | zero => intro n acc h; omega
  | succ f ih =>
    intro n acc h
    rw [Nat.toDigitsCore, natDigs]
    by_cases h0 : n / 10 = 0
    · simp [h0]
    · have hlt : n / 10 < f := by
        have h10 : 10 ≤ n := by
          by_contra hc
          exact h0 (Nat.div_eq_of_lt (by omega))
        have := Nat.div_lt_self (by omega : 0 < n) (by omega : 1 < 10)
        omega
      simp only [h0, if_false, dif_neg h0]
      rw [ih (n / 10) (Nat.digitChar (n % 10) :: acc) hlt]
      simp

theorem natRepr_eq (n : Nat) : Nat.repr n = (natDigs n).asString := by
  show (Nat.toDigits 10 n).asString = _
  unfold Nat.toDigits
  rw [toDigitsCore_eq_natDigs (n + 1) n [] (by omega)]
  simp

theorem digitChar_ne_pipe : ∀ d, d < 10 → Nat.digitChar d ≠ '|' := by decide

theorem digitChar_ne_dash : ∀ d, d < 10 → Nat.digitChar d ≠ '-' := by decide

theorem digitChar_val : ∀ d, d < 10 → (Nat.digitChar d).toNat - 48 = d := by decide

theorem natDigs_chars (n : Nat) : ∀ c ∈ natDigs n, ∃ d, d < 10 ∧ c = Nat.digitChar d := by
  induction n using Nat.strong_induction_on with
  | _ n ih =>
    rw [natDigs]
    by_cases h0 : n / 10 = 0
    · simp only [dif_pos h0]
      intro c hc
      simp only [List.mem_singleton] at hc
      exact ⟨n % 10, Nat.mod_lt _ (by omega), hc⟩
    · simp only [dif_neg h0]
      intro c hc
      rcases List.mem_append.mp hc with h1 | h2
      · have hpos : 0 < n := by
          rcases Nat.eq_zero_or_pos n with rfl | h
          · exact absurd (by simp) h0
          · exact h
        exact ih (n / 10) (Nat.div_lt_self hpos (by omega)) c h1
      · simp only [List.mem_singleton] at h2
        exact ⟨n % 10, Nat.mod_lt _ (by omega), h2⟩

theorem natDigs_ne_nil (n : Nat) : natDigs n ≠ [] := by
  rw [natDigs]
  by_cases h0 : n / 10 = 0 <;> simp [h0]

/-- Decoding a digit list with an accumulator, as `int()` would. -/
def decFrom (a : Nat) (l : List Char) : Nat :=
  l.foldl (fun x c => x * 10 + (c.toNat - 48)) a

theorem decFrom_natDigs (n : Nat) :
    ∀ a, decFrom a (natDigs n) = a * 10 ^ (natDigs n).length + n := by
  induction n using Nat.strong_induction_on with
  | _ n ih =>
    intro a
    rw [natDigs]
    by_cases h0 : n / 10 = 0
    · have hn : n < 10 := by
        by_contra hc
        have h1 : 1 ≤ n / 10 := (Nat.one_le_div_iff (by omega)).mpr (by omega)
        omega
      simp only [dif_pos h0, decFrom, List.foldl_cons, List.foldl_nil, List.length_singleton]
      rw [digitChar_val (n % 10) (Nat.mod_lt _ (by omega))]
      have : n % 10 = n := Nat.mod_eq_of_lt hn
      rw [this]
      ring
    · have hpos : 0 < n := by
        rcases Nat.eq_zero_or_pos n with rfl | h
        · exact absurd (by simp) h0
        · exact h
      have hlt : n / 10 < n := Nat.div_lt_self hpos (by omega)
      simp only [dif_neg h0, decFrom, List.foldl_append, List.foldl_cons, List.foldl_nil,
        List.length_append, List.length_singleton]
      have hrec := ih (n / 10) hlt a
      unfold decFrom at hrec
      rw [hrec, digitChar_val (n % 10) (Nat.mod_lt _ (by omega))]
      have hdm : n / 10 * 10 + n % 10 = n := by
        have := Nat.div_add_mod n 10
        omega
      rw [pow_succ]
      ring_nf
      omega

theorem natDigs_inj {n m : Nat} (h : natDigs n = natDigs m) : n = m := by
  have h1 := decFrom_natDigs n 0
  have h2 := decFrom_natDigs m 0
  rw [h] at h1
  simp only [Nat.zero_mul, Nat.zero_add] at h1 h2
  omega

theorem natRepr_inj {n m : Nat} (h : Nat.repr n = Nat.repr m) : n = m := by
  rw [natRepr_eq, natRepr_eq] at h
  exact natDigs_inj (congrArg String.data h)

theorem natRepr_data (n : Nat) : (Nat.repr n).data = natDigs n := by
  rw [natRepr_eq]
  rfl

theorem pipe_not_mem_natRepr (n : Nat) : '|' ∉ (Nat.repr n).data := by
  rw [natRepr_data]
  intro hc
  rcases natDigs_chars n _ hc with ⟨d, hd, he⟩
  exact digitChar_ne_pipe d hd he.symm

theorem intRepr_data_ofNat (n : Nat) : (Int.repr (Int.ofNat n)).data = natDigs n :=
  natRepr_data n

theorem intRepr_data_negSucc (m : Nat) :
    (Int.repr (Int.negSucc m)).data = '-' :: natDigs (m + 1) := by
  show (("-" : String) ++ Nat.repr (m + 1)).data = _
  rw [String.data_append, natRepr_data]
  rfl

theorem pipe_not_mem_intRepr (i : Int) : '|' ∉ (Int.repr i).data := by
  cases i with
  | ofNat n => rw [intRepr_data_ofNat]; rw [← natRepr_data]; exact pipe_not_mem_natRepr n
  | negSucc m =>
    rw [intRepr_data_negSucc]
    intro hc
    rcases List.mem_cons.mp hc with h | h
    · exact absurd h.symm (by decide)
    · exact pipe_not_mem_natRepr (m + 1) (natRepr_data (m + 1) ▸ h)

theorem natDigs_head_digit (n : Nat) :
    ∀ l, natDigs n ≠ '-' :: l := by
  intro l he
  have hmem : '-' ∈ natDigs n := by rw [he]; simp
  rcases natDigs_chars n _ hmem with ⟨d, hd, heq⟩
  exact digitChar_ne_dash d hd heq.symm

theorem intRepr_inj {a b : Int} (h : Int.repr a = Int.repr b) : a = b := by
  have hd : (Int.repr a).data = (Int.repr b).data := by rw [h]
  cases a with
  | ofNat n =>
    cases b with
    | ofNat m =>
      rw [intRepr_data_ofNat, intRepr_data_ofNat] at hd
      exact congrArg Int.ofNat (natDigs_inj hd)
    | negSucc m =>
      rw [intRepr_data_ofNat, intRepr_data_negSucc] at hd
      exact absurd hd (natDigs_head_digit n _)
  | negSucc n =>
    cases b with
    | ofNat m =>
      rw [intRepr_data_negSucc, intRepr_data_ofNat] at hd
      exact absurd hd.symm (natDigs_head_digit m _)
    | negSucc m =>
      rw [intRepr_data_negSucc, intRepr_data_negSucc] at hd
      simp only [List.cons.injEq, true_and] at hd
      have hnm : n + 1 = m + 1 := natDigs_inj hd
      have : n = m := by omega
      rw [this]

theorem split_at_pipe :
    ∀ (l₁ l₂ r₁ r₂ : List Char), '|' ∉ l₁ → '|' ∉ l₂ →
      l₁ ++ '|' :: r₁ = l₂ ++ '|' :: r₂ → l₁ = l₂ ∧ r₁ = r₂ := by
  intro l₁
  induction l₁ with
  | nil =>
    intro l₂ r₁ r₂ _ h2 he
    cases l₂ with
    | nil => simpa using he
    | cons c cs =>
      exfalso
      simp only [List.nil_append, List.cons_append, List.cons.injEq] at he
      exact h2 (by simp [← he.1])
  | cons c cs ih =>
    intro l₂ r₁ r₂ h1 h2 he
    cases l₂ with
    | nil =>
      exfalso
      simp only [List.nil_append, List.cons_append, List.cons.injEq] at he
      exact h1 (by simp [he.1])
    | cons d ds =>
      simp only [List.cons_append, List.cons.injEq] at he
      have hih := ih ds r₁ r₂ (fun hm => h1 (by simp [hm])) (fun hm => h2 (by simp [hm])) he.2
      exact ⟨by rw [he.1, hih.1], hih.2⟩

-- Player props (`ingest_betting_and_extras.py`, `balldontlie_ingestor.py`) --

/-- Lookup in a Python dict literal embedded as an association list. -/
def alook (l : List (String × α)) (k : String) : Option α :=
  match l with
  | [] => none
  | (k₀, v) :: rest => if k₀ = k then some v else alook rest k

/-- `VENDOR_PRIORITY` (ingest_betting_and_extras.py lines 10-16);
lower value = more preferred. -/
def VENDOR_PRIORITY : List (String × Nat) :=
  [("draftkings", 1), ("fanduel", 2), ("betmgm", 3), ("bet365", 4), ("betway", 5)]

/-- `PROP_MAP` (lines 19-30): upstream prop type → DB column. -/
def PROP_MAP : List (String × String) :=
  [ ("passing_yards", "player_pass_yds"),
    ("rushing_yards", "player_rush_yds"),
    ("receiving_yards", "player_rec_yds"),
    ("passing_tds", "player_pass_tds"),
    ("passing_attempts", "player_pass_att"),
    ("rushing_attempts", "player_rush_att"),
    ("rushing_receiving_yards", "player_rush_rec_yds"),
    ("longest_rush", "player_longest_rush"),
    ("longest_reception", "player_longest_rec") ]

/-- ASCII `str.lower()`. -/
def pyCharLower (c : Char) : Char :=
  if 'A' ≤ c ∧ c ≤ 'Z' then Char.ofNat (c.toNat + 32) else c

def pyLower (s : String) : String :=
  ⟨s.data.map pyCharLower⟩

/-- Python `a or b` on optional strings (`None` and `""` are falsy). -/
def pyOrStr (a b : Option String) : Option String :=
  match a with
  | some s => if s = "" then b else some s
  | none => b

/-- The nested `market` object; the code reads `type`, `over_odds`,
`under_odds` and (in the ingestor's mapper) `odds`. -/
structure Market where
  type : Option String
  over_odds : Option Lit
  under_odds : Option Lit
  odds : Option Lit
  deriving DecidableEq, Repr

/-- An upstream player-prop record, with exactly the keys the two filter
predicates and `map_player_prop` access.  An absent or `None`-valued key is
`none`. -/
structure PropRecord where
  id : Option Lit
  game_id : Option Lit
  player_id : Option Int
  vendor : Option String
  bookmaker : Option String
  market : Option Market
  prop_type : Option String
  line_value : Option Lit
  updated_at : Option String
  deriving DecidableEq, Repr

/-- `(row.get("vendor") or row.get("bookmaker") or "").lower()`. -/
def vendorOf (r : PropRecord) : String :=
  pyLower ((pyOrStr r.vendor r.bookmaker).getD "")

/-- `(row.get("market") or {}).get("type")`. -/
def marketTypeOf (r : PropRecord) : Option String :=
  match r.market with
  | none => none
  | some m => m.type

/-- `is_valid_prop` (ingest_betting_and_extras.py lines 49-65): vendor must be
ranked in `VENDOR_PRIORITY`, and the market type must be `"over_under"`. -/
def is_valid_prop (r : PropRecord) : Bool :=
  if (alook VENDOR_PRIORITY (vendorOf r)).isNone then false
  else if marketTypeOf r = some "over_under" then true
  else false

/-- `should_ingest_prop` (balldontlie_ingestor.py lines 519-536): keep
`over_under` markets, and `milestone` markets whose prop type is
`anytime_td`.  `market.get("type", "")` and `prop.get("prop_type", "")`
default to `""`. -/
def should_ingest_prop (r : PropRecord) : Bool :=
  if (marketTypeOf r).getD "" = "over_under" then true
  else if (marketTypeOf r).getD "" = "milestone" ∧ r.prop_type.getD "" = "anytime_td" then true
  else false

/-- The dict literal `map_player_prop` builds (lines 84-95). -/
structure MappedProp where
  id : Option Lit
  game_id : Option Lit
  player_id : Int
  vendor : String
  prop_type : String
  market_type : Option String
  line_value : Option Lit
  over_odds : Option Lit
  under_odds : Option Lit
  updated_at : String
  deriving DecidableEq, Repr

/-- `map_player_prop` (lines 67-95): `None` when the prop type is unmapped or
`player_id` is falsy; `row.get("updated_at") or now` falls back to the
wall clock. -/
def map_player_prop (now : String) (r : PropRecord) : Option MappedProp :=
  match r.prop_type with
  | none => none
  | some rawType =>
    match alook PROP_MAP rawType with
    | none => none
    | some dbPropType =>
      match r.player_id with
      | none => none
      | some pid =>
        if pid = 0 then none
        else some
          { id := r.id
            game_id := r.game_id
            player_id := pid
            vendor := vendorOf r
            prop_type := dbPropType
            market_type := (r.market.getD ⟨none, none, none, none⟩).type
            line_value := r.line_value
            over_odds := (r.market.getD ⟨none, none, none, none⟩).over_odds
            under_odds := (r.market.getD ⟨none, none, none, none⟩).under_odds
            updated_at := (pyOrStr r.updated_at (some now)).getD now }

/-- The dict key `f"{player_id}|{prop_type}"` of `_get_best_props`. -/
def bestKey (m : MappedProp) : String :=
  Int.repr m.player_id ++ "|" ++ m.prop_type

/-- `VENDOR_PRIORITY.get(vendor, 99)`. -/
def prioOf (v : String) : Nat :=
  (alook VENDOR_PRIORITY v).getD 99

/-- In-place value update of the insertion-ordered dict `best_map`. -/
def bmReplace (l : List (String × MappedProp)) (k : String) (m : MappedProp) :
    List (String × MappedProp) :=
  match l with
  | [] => []
  | (k₀, v) :: rest => if k₀ = k then (k₀, m) :: rest else (k₀, v) :: bmReplace rest k m

/-- One loop iteration of `_get_best_props` (lines 104-131). -/
def bestStep (now : String) (best : List (String × MappedProp)) (r : PropRecord) :
    List (String × MappedProp) :=
  if is_valid_prop r then
    match map_player_prop now r with
    | none => best
    | some m =>
      match alook best (bestKey m) with
      | none => best ++ [(bestKey m, m)]
      | some ex => if prioOf m.vendor < prioOf ex.vendor then bmReplace best (bestKey m) m
                   else best
  else best

/-- `_get_best_props` (lines 97-133): fold the candidate rows through the
best-map and return its values in insertion order. -/
def get_best_props (now : String) (rows : List PropRecord) : List MappedProp :=
  (rows.foldl (bestStep now) []).map Prod.snd

/-- The candidates that survive `is_valid_prop` and `map_player_prop`, in
input order. -/
def validCands (now : String) (rows : List PropRecord) : List MappedProp :=
  rows.filterMap fun r => if is_valid_prop r then map_player_prop now r else none

-- C10: the two prop-filter predicates --------------------------------------

/-- An over-under prop quoted by a vendor outside `VENDOR_PRIORITY`. -/
def unrankedOverUnderProp : PropRecord :=
  ⟨some (.int 9), some (.int 100), some 55, some "caesars", none,
    some ⟨some "over_under", some (.int (-110)), some (.int (-105)), none⟩,
    some "passing_yards", some (.int 250), none⟩

/-- C10 counterexample: `should_ingest_prop` keeps any over-under prop
regardless of vendor, while `is_valid_prop` rejects vendors missing from
`VENDOR_PRIORITY`; on this record the two predicates disagree, so they are
not equivalent.  (They also disagree on milestone `anytime_td` props, which
only `should_ingest_prop` keeps.) -/
theorem prop_filters_disagree :
    should_ingest_prop unrankedOverUnderProp = true ∧
      is_valid_prop unrankedOverUnderProp = false := by
  decide

/-- C10 (amended): the predicates are not equivalent; instead
`is_valid_prop` is strictly stronger — every record it accepts is also
accepted by `should_ingest_prop`, but not conversely. -/
theorem is_valid_implies_should_ingest (r : PropRecord)
    (h : is_valid_prop r = true) : should_ingest_prop r = true := by
  unfold is_valid_prop at h
  by_cases h1 : (alook VENDOR_PRIORITY (vendorOf r)).isNone
  · simp [h1] at h
  · simp only [h1, if_false] at h
    by_cases h2 : marketTypeOf r = some "over_under"
    · unfold should_ingest_prop
      rw [h2]
      simp
    · simp [h2] at h

/-- C10 witness: a ranked-vendor over-under record accepted by both. -/
theorem is_valid_implies_should_ingest_witness :
    is_valid_prop ⟨none, none, some 55, some "draftkings", none,
        some ⟨some "over_under", none, none, none⟩, some "passing_yards", none, none⟩ = true ∧
      should_ingest_prop ⟨none, none, some 55, some "draftkings", none,
        some ⟨some "over_under", none, none, none⟩, some "passing_yards", none, none⟩ = true :=
  ⟨by decide,
    is_valid_implies_should_ingest
      ⟨none, none, some 55, some "draftkings", none,
        some ⟨some "over_under", none, none, none⟩, some "passing_yards", none, none⟩
      (by decide)⟩

-- C2: dedup invariant machinery ---------------------------------------------

theorem alook_mem {l : List (String × α)} {k : String} {v : α}
    (h : alook l k = some v) : (k, v) ∈ l := by
  induction l with
  | nil => simp [alook] at h
  | cons p rest ih =>
    rw [alook] at h
    by_cases hk : p.1 = k
    · simp only [hk, if_true, Option.some.injEq] at h
      have : (k, v) = p := by
        obtain ⟨p1, p2⟩ := p
        simp only at hk h
        rw [hk, h]
      rw [this]
      exact List.mem_cons_self p rest
    · simp only [hk, if_false] at h
      exact List.mem_cons_of_mem p (ih h)

theorem alook_eq_none_iff {l : List (String × α)} {k : String} :
    alook l k = none ↔ k ∉ l.map Prod.fst := by
  induction l with
  | nil => simp [alook]
  | cons p rest ih =>
    rw [alook]
    by_cases hk : p.1 = k
    · simp [hk]
    · simp [hk, ih, Ne.symm hk]

theorem alook_of_mem_nodup {l : List (String × α)} {k : String} {v : α}
    (hmem : (k, v) ∈ l) (hnd : (l.map Prod.fst).Nodup) : alook l k = some v := by
  induction l with
  | nil => simp at hmem
  | cons p rest ih =>
    rcases List.mem_cons.mp hmem with heq | htail
    · rw [← heq, alook]
      simp
    · rw [alook]
      by_cases hk : p.1 = k
      · exfalso
        have hkm : k ∈ rest.map Prod.fst := by
          have := List.mem_map_of_mem Prod.fst htail
          simpa using this
        have hh := (List.nodup_cons.mp hnd).1
        rw [hk] at hh
        exact hh hkm
      · simp only [hk, if_false]
        exact ih htail (List.nodup_cons.mp hnd).2

theorem alook_append_single_ne {l : List (String × α)} {k k' : String} {v : α}
    (h : k' ≠ k) : alook (l ++ [(k', v)]) k = alook l k := by
  induction l with
  | nil => simp [alook, h]
  | cons p rest ih =>
    rw [List.cons_append, alook, alook]
    by_cases hk : p.1 = k <;> simp [hk, ih]

theorem alook_append_single_eq {l : List (String × α)} {k : String} {v : α}
    (h : alook l k = none) : alook (l ++ [(k, v)]) k = some v := by
  induction l with
  | nil => simp [alook]
  | cons p rest ih =>
    rw [alook] at h
    rw [List.cons_append, alook]
    by_cases hk : p.1 = k
    · simp [hk] at h
    · simp only [hk, if_false]
      exact ih (by simpa [hk] using h)

theorem bmReplace_map_fst (l : List (String × MappedProp)) (k : String) (m : MappedProp) :
    (bmReplace l k m).map Prod.fst = l.map Prod.fst := by
  induction l with
  | nil => rfl
  | cons p rest ih =>
    rw [bmReplace]
    by_cases hk : p.1 = k <;> simp [hk, ih]

theorem alook_bmReplace_ne (l : List (String × MappedProp)) (k k' : String)
    (m : MappedProp) (h : k' ≠ k) : alook (bmReplace l k' m) k = alook l k := by
  induction l with
  | nil => rfl
  | cons p rest ih =>
    rw [bmReplace]
    by_cases hk : p.1 = k'
    · rw [if_pos hk, alook, alook]
      have hne : ¬ p.1 = k := by rw [hk]; exact h
      simp [hne]
    · rw [if_neg hk, alook, alook]
      by_cases hk2 : p.1 = k <;> simp [hk2, ih]

theorem alook_bmReplace_eq (l : List (String × MappedProp)) (k : String)
    (m x : MappedProp) (h : alook l k = some x) :
    alook (bmReplace l k m) k = some m := by
  induction l with
  | nil => simp [alook] at h
  | cons p rest ih =>
    rw [alook] at h
    rw [bmReplace]
    by_cases hk : p.1 = k
    · rw [if_pos hk, alook]
      simp [hk]
    · rw [if_neg hk, alook]
      simp only [hk, if_false]
      exact ih (by simpa [hk] using h)

theorem mem_bmReplace {l : List (String × MappedProp)} {k : String} {m : MappedProp}
    {p : String × MappedProp} (h : p ∈ bmReplace l k m) :
    p ∈ l ∨ (p.1 = k ∧ p.2 = m) := by
  induction l with
  | nil => simp [bmReplace] at h
  | cons q rest ih =>
    rw [bmReplace] at h
    by_cases hk : q.1 = k
    · rw [if_pos hk] at h
      rcases List.mem_cons.mp h with heq | htail
      · right
        rw [heq]
        exact ⟨hk, rfl⟩
      · left
        exact List.mem_cons_of_mem q htail
    · rw [if_neg hk] at h
      rcases List.mem_cons.mp h with heq | htail
      · left
        rw [heq]
        simp
      · rcases ih htail with h1 | h2
        · left
          exact List.mem_cons_of_mem q h1
        · right
          exact h2

-- the first-minimum selection semantics of the best-map update

/-- The champion update: replace the held candidate only when strictly
better (lower priority value). -/
def pickMin (acc : Option MappedProp) (m : MappedProp) : Option MappedProp :=
  match acc with
  | none => some m
  | some e => if prioOf m.vendor < prioOf e.vendor then some m else some e

/-- The earliest lowest-priority element of a candidate list. -/
def firstMin (l : List MappedProp) : Option MappedProp :=
  l.foldl pickMin none

theorem firstMin_append_singleton (l : List MappedProp) (m : MappedProp) :
    firstMin (l ++ [m]) = pickMin (firstMin l) m := by
  unfold firstMin
  rw [List.foldl_append]
  rfl

theorem foldl_pickMin_some (l : List MappedProp) :
    ∀ (e : MappedProp), ∃ m, l.foldl pickMin (some e) = some m ∧
      ((m = e ∧ ∀ x ∈ l, prioOf e.vendor ≤ prioOf x.vendor) ∨
       (∃ l₁ l₂, l = l₁ ++ m :: l₂ ∧ prioOf m.vendor < prioOf e.vendor ∧
         (∀ x ∈ l₁, prioOf m.vendor < prioOf x.vendor) ∧
         (∀ x ∈ l₂, prioOf m.vendor ≤ prioOf x.vendor))) := by
  induction l with
  | nil => intro e; exact ⟨e, rfl, Or.inl ⟨rfl, by simp⟩⟩
  | cons a rest ih =>
    intro e
    by_cases hlt : prioOf a.vendor < prioOf e.vendor
    · obtain ⟨m, hm, hcases⟩ := ih a
      refine ⟨m, ?_, ?_⟩
      · rw [List.foldl_cons]
        show rest.foldl pickMin (pickMin (some e) a) = some m
        simpa [pickMin, hlt] using hm
      · rcases hcases with ⟨rfl, hall⟩ | ⟨l₁, l₂, hsplit, hlt2, h1, h2⟩
        · exact Or.inr ⟨[], rest, by simp, hlt, by simp, hall⟩
        · exact Or.inr ⟨a :: l₁, l₂, by rw [hsplit]; rfl, lt_trans hlt2 hlt,
            fun x hx => by
              rcases List.mem_cons.mp hx with rfl | hx
              · exact hlt2
              · exact h1 x hx,
            h2⟩
    · obtain ⟨m, hm, hcases⟩ := ih e
      refine ⟨m, ?_, ?_⟩
      · rw [List.foldl_cons]
        show rest.foldl pickMin (pickMin (some e) a) = some m
        simpa [pickMin, hlt] using hm
      · rcases hcases with ⟨rfl, hall⟩ | ⟨l₁, l₂, hsplit, hlt2, h1, h2⟩
        · refine Or.inl ⟨rfl, fun x hx => ?_⟩
          rcases List.mem_cons.mp hx with rfl | hx
          · exact not_lt.mp hlt
          · exact hall x hx
        · refine Or.inr ⟨a :: l₁, l₂, by rw [hsplit]; rfl, hlt2,
            fun x hx => ?_, h2⟩
          rcases List.mem_cons.mp hx with rfl | hx
          · exact lt_of_lt_of_le hlt2 (not_lt.mp hlt)
          · exact h1 x hx

theorem firstMin_spec {l : List MappedProp} {m : MappedProp}
    (h : firstMin l = some m) :
    ∃ l₁ l₂, l = l₁ ++ m :: l₂ ∧
      (∀ x ∈ l₁, prioOf m.vendor < prioOf x.vendor) ∧
      (∀ x ∈ l₂, prioOf m.vendor ≤ prioOf x.vendor) := by
  cases l with
  | nil => simp [firstMin] at h
  | cons a rest =>
    have : rest.foldl pickMin (some a) = some m := by
      simpa [firstMin, List.foldl_cons, pickMin] using h
    obtain ⟨m', hm', hcases⟩ := foldl_pickMin_some rest a
    rw [this] at hm'
    obtain rfl : m = m' := by injection hm'
    rcases hcases with ⟨rfl, hall⟩ | ⟨l₁, l₂, hsplit, hlt, h1, h2⟩
    · exact ⟨[], rest, rfl, by simp, hall⟩
    · refine ⟨a :: l₁, l₂, by rw [hsplit]; rfl, fun x hx => ?_, h2⟩
      rcases List.mem_cons.mp hx with rfl | hx
      · exact hlt
      · exact h1 x hx

theorem firstMin_nil : firstMin ([] : List MappedProp) = none := rfl

theorem firstMin_isSome {l : List MappedProp} (h : l ≠ []) :
    (firstMin l).isSome := by
  cases l with
  | nil => exact absurd rfl h
  | cons a rest =>
    have : firstMin (a :: rest) = rest.foldl pickMin (some a) := by
      simp [firstMin, List.foldl_cons, pickMin]
    rw [this]
    obtain ⟨m, hm, _⟩ := foldl_pickMin_some rest a
    rw [hm]
    rfl

-- the pair (player_id, prop_type) is recoverable from the f-string key

/-- The string `f"{pid}|{pt}"`. -/
def mkKey (pid : Int) (pt : String) : String :=
  Int.repr pid ++ "|" ++ pt

theorem bestKey_eq_mkKey (m : MappedProp) :
    bestKey m = mkKey m.player_id m.prop_type := rfl

theorem string_ext {a b : String} (h : a.data = b.data) : a = b := by
  cases a
  cases b
  exact congrArg String.mk h

theorem mkKey_data (pid : Int) (pt : String) :
    (mkKey pid pt).data = (Int.repr pid).data ++ '|' :: pt.data := by
  unfold mkKey
  rw [String.data_append, String.data_append]
  simp

theorem mkKey_inj {pid pid' : Int} {pt pt' : String}
    (h : mkKey pid pt = mkKey pid' pt') : pid = pid' ∧ pt = pt' := by
  have hd := congrArg String.data h
  rw [mkKey_data, mkKey_data] at hd
  obtain ⟨h1, h2⟩ :=
    split_at_pipe _ _ _ _ (pipe_not_mem_intRepr pid) (pipe_not_mem_intRepr pid') hd
  exact ⟨intRepr_inj (string_ext h1), string_ext h2⟩

/-- Membership of a candidate in the key class `k`. -/
def keyFilter (k : String) (m : MappedProp) : Bool :=
  bestKey m == k

/-- Membership of a candidate in the (player_id, prop_type) pair class. -/
def pairFilter (pid : Int) (pt : String) (m : MappedProp) : Bool :=
  m.player_id == pid && m.prop_type == pt

theorem pairFilter_eq_keyFilter (pid : Int) (pt : String) (m : MappedProp) :
    pairFilter pid pt m = keyFilter (mkKey pid pt) m := by
  unfold pairFilter keyFilter
  apply Bool.eq_iff_iff.mpr
  simp only [Bool.and_eq_true, beq_iff_eq]
  constructor
  · rintro ⟨h1, h2⟩
    rw [bestKey_eq_mkKey, h1, h2]
  · intro h
    exact mkKey_inj (bestKey_eq_mkKey m ▸ h)

-- the fold invariant of `_get_best_props`

/-- After processing the prefix `done`, the best-map `best` holds, for every
key, the earliest lowest-priority valid candidate of that key class; every
entry is stored under its own f-string key, and keys are unique. -/
def BestInv (now : String) (done : List PropRecord)
    (best : List (String × MappedProp)) : Prop :=
  (∀ p ∈ best, p.1 = bestKey p.2) ∧
  (best.map Prod.fst).Nodup ∧
  ∀ k, alook best k = firstMin ((validCands now done).filter (keyFilter k))

theorem validCands_append_one (now : String) (done : List PropRecord) (r : PropRecord) :
    validCands now (done ++ [r]) =
      validCands now done ++
        (if is_valid_prop r then (map_player_prop now r).toList else []) := by
  unfold validCands
  rw [List.filterMap_append]
  congr 1
  by_cases hv : is_valid_prop r
  · cases hm : map_player_prop now r <;> simp [List.filterMap, hv, hm]
  · simp [List.filterMap, hv]

theorem bestStep_inv {now : String} {done : List PropRecord}
    {best : List (String × MappedProp)} (hinv : BestInv now done best)
    (r : PropRecord) : BestInv now (done ++ [r]) (bestStep now best r) := by
  obtain ⟨hkeys, hnd, hlook⟩ := hinv
  by_cases hv : is_valid_prop r
  · cases hm : map_player_prop now r with
    | none =>
      unfold bestStep
      rw [if_pos hv, hm]
      refine ⟨hkeys, hnd, fun k => ?_⟩
      rw [validCands_append_one, if_pos hv, hm]
      simpa using hlook k
    | some m =>
      have hcands : validCands now (done ++ [r]) = validCands now done ++ [m] := by
        rw [validCands_append_one, if_pos hv, hm]
        rfl
      cases hex : alook best (bestKey m) with
      | none =>
        have hstep : bestStep now best r = best ++ [(bestKey m, m)] := by
          simp only [bestStep, hv, if_true, hm, hex]
        rw [hstep]
        refine ⟨?_, ?_, ?_⟩
        · intro p hp
          rcases List.mem_append.mp hp with h1 | h1
          · exact hkeys p h1
          · simp only [List.mem_singleton] at h1
            rw [h1]
        · rw [List.map_append]
          apply List.Nodup.append hnd (by simp)
          intro a ha hb
          simp only [List.map_cons, List.map_nil, List.mem_singleton] at hb
          rw [hb] at ha
          exact (alook_eq_none_iff.mp hex) ha
        · intro k
          rw [hcands, List.filter_append]
          by_cases hk : k = bestKey m
          · subst hk
            rw [alook_append_single_eq hex]
            have hfk : keyFilter (bestKey m) m = true := by simp [keyFilter]
            simp only [List.filter_cons, hfk, if_true, List.filter_nil]
            rw [firstMin_append_singleton, ← hlook (bestKey m), hex]
            rfl
          · rw [alook_append_single_ne (fun he => hk he.symm)]
            have hfk : keyFilter k m = false := by
              simp only [keyFilter, beq_eq_false_iff_ne, ne_eq]
              exact fun he => hk he.symm
            simp only [List.filter_cons, hfk, Bool.false_eq_true, if_false, List.filter_nil, List.append_nil]
            exact hlook k
      | some ex =>
        by_cases hlt : prioOf m.vendor < prioOf ex.vendor
        · have hstep : bestStep now best r = bmReplace best (bestKey m) m := by
            simp only [bestStep, hv, if_true, hm, hex, if_pos hlt]
          rw [hstep]
          refine ⟨?_, ?_, ?_⟩
          · intro p hp
            rcases mem_bmReplace hp with h1 | ⟨h1, h2⟩
            · exact hkeys p h1
            · rw [h1, h2]
          · rw [bmReplace_map_fst]
            exact hnd
          · intro k
            rw [hcands, List.filter_append]
            by_cases hk : k = bestKey m
            · subst hk
              rw [alook_bmReplace_eq best (bestKey m) m ex hex]
              have hfk : keyFilter (bestKey m) m = true := by simp [keyFilter]
              simp only [List.filter_cons, hfk, if_true, List.filter_nil]
              rw [firstMin_append_singleton, ← hlook (bestKey m), hex]
              simp [pickMin, hlt]
            · rw [alook_bmReplace_ne best k (bestKey m) m (fun he => hk he.symm)]
              have hfk : keyFilter k m = false := by
                simp only [keyFilter, beq_eq_false_iff_ne, ne_eq]
                exact fun he => hk he.symm
              simp only [List.filter_cons, hfk, Bool.false_eq_true, if_false, List.filter_nil, List.append_nil]
              exact hlook k
        · have hstep : bestStep now best r = best := by
            simp only [bestStep, hv, if_true, hm, hex, if_neg hlt]
          rw [hstep]
          refine ⟨hkeys, hnd, fun k => ?_⟩
          rw [hcands, List.filter_append]
          by_cases hk : k = bestKey m
          · subst hk
            have hfk : keyFilter (bestKey m) m = true := by simp [keyFilter]
            simp only [List.filter_cons, hfk, if_true, List.filter_nil]
            rw [firstMin_append_singleton, ← hlook (bestKey m), hex]
            simp [pickMin, hlt]
          · have hfk : keyFilter k m = false := by
              simp only [keyFilter, beq_eq_false_iff_ne, ne_eq]
              exact fun he => hk he.symm
            simp only [List.filter_cons, hfk, Bool.false_eq_true, if_false, List.filter_nil, List.append_nil]
            exact hlook k
  · unfold bestStep
    rw [if_neg hv]
    refine ⟨hkeys, hnd, fun k => ?_⟩
    rw [validCands_append_one, if_neg hv]
    simpa using hlook k

theorem foldl_bestStep_inv (now : String) :
    ∀ (rows done : List PropRecord) (best : List (String × MappedProp)),
      BestInv now done best →
      BestInv now (done ++ rows) (rows.foldl (bestStep now) best) := by
  intro rows
  induction rows with
  | nil => intro done best h; simpa using h
  | cons r rest ih =>
    intro done best h
    have h2 := ih (done ++ [r]) _ (bestStep_inv h r)
    simpa using h2

theorem bestInv_run (now : String) (rows : List PropRecord) :
    BestInv now rows (rows.foldl (bestStep now) []) := by
  have hbase : BestInv now [] [] := by
    refine ⟨by simp, by simp, fun k => ?_⟩
    simp [alook, validCands, firstMin]
  simpa using foldl_bestStep_inv now rows [] [] hbase

theorem values_filter_none :
    ∀ (l : List (String × MappedProp)) (k : String),
      (∀ p ∈ l, p.1 = bestKey p.2) → (∀ p ∈ l, p.1 ≠ k) →
      (l.map Prod.snd).filter (keyFilter k) = [] := by
  intro l k
  induction l with
  | nil => intro _ _; rfl
  | cons p rest ih =>
    intro hkeys hne
    have hp : keyFilter k p.2 = false := by
      simp only [keyFilter, beq_eq_false_iff_ne, ne_eq]
      rw [← hkeys p (by simp)]
      exact hne p (by simp)
    simp only [List.map_cons, List.filter_cons, hp, Bool.false_eq_true, if_false]
    exact ih (fun q hq => hkeys q (List.mem_cons_of_mem p hq))
      (fun q hq => hne q (List.mem_cons_of_mem p hq))

theorem values_filter_of_alook :
    ∀ (l : List (String × MappedProp)) (k : String),
      (∀ p ∈ l, p.1 = bestKey p.2) → (l.map Prod.fst).Nodup →
      (l.map Prod.snd).filter (keyFilter k) =
        (match alook l k with
          | some m => [m]
          | none => []) := by
  intro l
  induction l with
  | nil => intro k _ _; rfl
  | cons p rest ih =>
    intro k hkeys hnd
    by_cases hk : p.1 = k
    · have halook : alook (p :: rest) k = some p.2 := by
        rw [alook, if_pos hk]
      have hp : keyFilter k p.2 = true := by
        simp only [keyFilter, beq_iff_eq]
        rw [← hkeys p (by simp), hk]
      have hrest : (rest.map Prod.snd).filter (keyFilter k) = [] := by
        apply values_filter_none rest k
          (fun q hq => hkeys q (List.mem_cons_of_mem p hq))
        intro q hq hqk
        have : k ∈ rest.map Prod.fst := by
          rw [← hqk]
          exact List.mem_map_of_mem Prod.fst hq
        have hh := (List.nodup_cons.mp hnd).1
        rw [hk] at hh
        exact hh this
      rw [halook]
      simp only [List.map_cons, List.filter_cons, hp, if_true, hrest]
    · have halook : alook (p :: rest) k = alook rest k := by
        rw [alook, if_neg hk]
      have hp : keyFilter k p.2 = false := by
        simp only [keyFilter, beq_eq_false_iff_ne, ne_eq]
        rw [← hkeys p (by simp)]
        exact hk
      rw [halook]
      simp only [List.map_cons, List.filter_cons, hp, Bool.false_eq_true, if_false]
      exact ih k (fun q hq => hkeys q (List.mem_cons_of_mem p hq))
        (List.nodup_cons.mp hnd).2

/-- Every surviving candidate's vendor appears in `VENDOR_PRIORITY`. -/
theorem validCands_vendor_ranked (now : String) (rows : List PropRecord)
    (m : MappedProp) (h : m ∈ validCands now rows) :
    (alook VENDOR_PRIORITY m.vendor).isSome := by
  unfold validCands at h
  obtain ⟨r, hr, hmr⟩ := List.mem_filterMap.mp h
  by_cases hv : is_valid_prop r
  · rw [if_pos hv] at hmr
    have hvend : m.vendor = vendorOf r := by
      unfold map_player_prop at hmr
      cases hpt : r.prop_type with
      | none => simp only [hpt] at hmr; exact absurd hmr (by simp)
      | some rawType =>
        simp only [hpt] at hmr
        cases hdb : alook PROP_MAP rawType with
        | none => simp only [hdb] at hmr; exact absurd hmr (by simp)
        | some dbPropType =>
          simp only [hdb] at hmr
          cases hpid : r.player_id with
          | none => simp only [hpid] at hmr; exact absurd hmr (by simp)
          | some pid =>
            simp only [hpid] at hmr
            by_cases h0 : pid = 0
            · simp only [h0, if_true] at hmr; exact absurd hmr (by simp)
            · rw [if_neg h0] at hmr
              have := Option.some.inj hmr
              rw [← this]
    rw [hvend]
    unfold is_valid_prop at hv
    by_cases hn : (alook VENDOR_PRIORITY (vendorOf r)).isNone
    · rw [if_pos hn] at hv
      exact absurd hv (by simp)
    · cases halook : alook VENDOR_PRIORITY (vendorOf r) with
      | none => rw [halook] at hn; exact absurd rfl hn
      | some v => simp [halook]
  · rw [if_neg hv] at hmr
    exact absurd hmr (by simp)

/-- C2: for every input collection and every (player_id, prop_type) pair,
`_get_best_props` retains no row when the pair has no valid candidate, and
otherwise retains exactly one row: a valid candidate whose vendor priority is
minimal among the pair's candidates and which is the earliest candidate
attaining that minimum (so a repeated vendor resolves to the first
encountered); rows whose vendor is unranked never survive, since every
retained row's vendor has an entry in `VENDOR_PRIORITY`. -/
theorem dedup_one_best_row_per_pair (now : String) (rows : List PropRecord)
    (pid : Int) (pt : String) :
    (∀ m ∈ get_best_props now rows, (alook VENDOR_PRIORITY m.vendor).isSome) ∧
    ((validCands now rows).filter (pairFilter pid pt) = [] →
      (get_best_props now rows).filter (pairFilter pid pt) = []) ∧
    ((validCands now rows).filter (pairFilter pid pt) ≠ [] →
      ∃ m l₁ l₂,
        (get_best_props now rows).filter (pairFilter pid pt) = [m] ∧
        (validCands now rows).filter (pairFilter pid pt) = l₁ ++ m :: l₂ ∧
        (∀ x ∈ l₁, prioOf m.vendor < prioOf x.vendor) ∧
        (∀ x ∈ l₂, prioOf m.vendor ≤ prioOf x.vendor)) := by
  obtain ⟨hkeys, hnd, hlook⟩ := bestInv_run now rows
  have hpairkey : (validCands now rows).filter (pairFilter pid pt) =
      (validCands now rows).filter (keyFilter (mkKey pid pt)) :=
    List.filter_congr fun m _ => pairFilter_eq_keyFilter pid pt m
  have hvalues : ∀ (k : String),
      (get_best_props now rows).filter (keyFilter k) =
        (match alook (rows.foldl (bestStep now) []) k with
          | some m => [m]
          | none => []) := by
    intro k
    exact values_filter_of_alook (rows.foldl (bestStep now) []) k hkeys hnd
  have hretpair : (get_best_props now rows).filter (pairFilter pid pt) =
      (get_best_props now rows).filter (keyFilter (mkKey pid pt)) :=
    List.filter_congr fun m _ => pairFilter_eq_keyFilter pid pt m
  refine ⟨?_, ?_, ?_⟩
  · intro m hm
    obtain ⟨p, hp, hpm⟩ := List.mem_map.mp hm
    have hpk : p.1 = bestKey p.2 := hkeys p hp
    have hal : alook (rows.foldl (bestStep now) []) p.1 = some p.2 := by
      obtain ⟨p1, p2⟩ := p
      exact alook_of_mem_nodup hp hnd
    rw [hlook p.1] at hal
    obtain ⟨l₁, l₂, hsplit, _, _⟩ := firstMin_spec hal
    have : p.2 ∈ (validCands now rows).filter (keyFilter p.1) := by
      rw [hsplit]
      simp
    rw [hpm] at this
    exact validCands_vendor_ranked now rows m (List.mem_of_mem_filter this)
  · intro hempty
    rw [hretpair, hvalues]
    have : alook (rows.foldl (bestStep now) []) (mkKey pid pt) = none := by
      rw [hlook, ← hpairkey, hempty]
      rfl
    rw [this]
  · intro hne
    rw [hpairkey] at hne
    have hsome : ∃ m, alook (rows.foldl (bestStep now) []) (mkKey pid pt) = some m := by
      rw [hlook]
      cases hcase : firstMin ((validCands now rows).filter (keyFilter (mkKey pid pt))) with
      | some m => exact ⟨m, rfl⟩
      | none =>
        exfalso
        have := firstMin_isSome hne
        rw [hcase] at this
        exact absurd this (by simp)
    obtain ⟨m, hm⟩ := hsome
    have hfm : firstMin ((validCands now rows).filter (keyFilter (mkKey pid pt))) =
        some m := by
      rw [← hlook]
      exact hm
    obtain ⟨l₁, l₂, hsplit, h1, h2⟩ := firstMin_spec hfm
    refine ⟨m, l₁, l₂, ?_, ?_, h1, h2⟩
    · rw [hretpair, hvalues, hm]
    · rw [hpairkey, hsplit]

/-- The spec-scenario fixture: three candidates for (player 55,
passing_yards) from fanduel (priority 2), draftkings (priority 1) and an
unranked vendor. -/
def scenarioProps : List PropRecord :=
  [ ⟨some (.int 1), some (.int 100), some 55, some "fanduel", none,
      some ⟨some "over_under", some (.int (-110)), some (.int (-105)), none⟩,
      some "passing_yards", some (.int 250), some "T1"⟩,
    ⟨some (.int 2), some (.int 100), some 55, some "draftkings", none,
      some ⟨some "over_under", some (.int (-112)), some (.int (-103)), none⟩,
      some "passing_yards", some (.int 251), some "T2"⟩,
    ⟨some (.int 3), some (.int 100), some 55, some "unranked_x", none,
      some ⟨some "over_under", some (.int (-108)), some (.int (-107)), none⟩,
      some "passing_yards", some (.int 252), some "T3"⟩ ]

/-- C2 witness: on the spec's scenario the theorem yields exactly one
retained row for (55, player_pass_yds), with a priority-1 (draftkings-ranked)
vendor minimal among the candidates. -/
theorem dedup_one_best_row_witness :
    ∃ m l₁ l₂,
      (get_best_props "NOW" scenarioProps).filter (pairFilter 55 "player_pass_yds") = [m] ∧
      (validCands "NOW" scenarioProps).filter (pairFilter 55 "player_pass_yds") =
        l₁ ++ m :: l₂ ∧
      (∀ x ∈ l₁, prioOf m.vendor < prioOf x.vendor) ∧
      (∀ x ∈ l₂, prioOf m.vendor ≤ prioOf x.vendor) :=
  (dedup_one_best_row_per_pair "NOW" scenarioProps 55 "player_pass_yds").2.2 (by decide)

-- C9: per-game error isolation in `ingest_player_props_filtered` ------------

/-- How an effect fails inside the per-game loop: a `BallDontLieError`
raised by the fetch client, or any other exception class (e.g. a store
failure raised by `supabase.upsert`). -/
inductive PyErr where
  | bdl
  | other
  deriving DecidableEq, Repr

deriving instance DecidableEq for Except

/-- Python truthiness of `r.get(f)`. -/
def rowTruthyField (r : Row) (f : String) : Bool :=
  ((getField r f).map Lit.truthy).getD false

/-- The ingestor's own `map_player_prop` (balldontlie_ingestor.py lines
1026-1041, the binding in effect when `ingest_player_props_filtered` runs):
total — it never returns `None`. -/
def ingestor_map_player_prop (p : PropRecord) (now : String) : Row :=
  [ ("id", p.id),
    ("game_id", p.game_id),
    ("player_id", p.player_id.map Lit.int),
    ("vendor", p.vendor.map Lit.str),
    ("prop_type", p.prop_type.map Lit.str),
    ("market_type", some (.str ((p.market.getD ⟨none, none, none, none⟩).type.getD ""))),
    ("line_value", p.line_value),
    ("over_odds",
      if (p.market.getD ⟨none, none, none, none⟩).type.getD "" = "over_under"
      then (p.market.getD ⟨none, none, none, none⟩).over_odds else none),
    ("under_odds",
      if (p.market.getD ⟨none, none, none, none⟩).type.getD "" = "over_under"
      then (p.market.getD ⟨none, none, none, none⟩).under_odds else none),
    ("milestone_odds",
      if (p.market.getD ⟨none, none, none, none⟩).type.getD "" = "milestone"
      then (p.market.getD ⟨none, none, none, none⟩).odds else none),
    ("updated_at", some (.str now)) ]

/-- The inner chunk loop (lines 1173-1178): keep rows with truthy
`player_id` and `game_id`, upsert each non-empty batch, accumulate counts;
an upsert failure propagates. -/
def upsertChunksLoop (upsert : List Row → Except PyErr Nat) :
    List (List Row) → Nat → Except PyErr Nat
  | [], acc => .ok acc
  | chunk :: rest, acc =>
    let valid := chunk.filter fun r =>
      rowTruthyField r "player_id" && rowTruthyField r "game_id"
    if valid.isEmpty then upsertChunksLoop upsert rest acc
    else
      match upsert valid with
      | .error e => .error e
      | .ok n => upsertChunksLoop upsert rest (acc + n)

/-- The `try:` body for one game (lines 1166-1178): fetch the game's raw
props, filter with `should_ingest_prop`, map, chunk, upsert. -/
def processGame (fetch : Int → Except PyErr (List PropRecord))
    (upsert : List Row → Except PyErr Nat) (now : String) (batch : Nat)
    (gameId : Int) : Except PyErr Nat :=
  match fetch gameId with
  | .error e => .error e
  | .ok rawProps =>
    upsertChunksLoop upsert
      (chunked ((rawProps.filter should_ingest_prop).map (ingestor_map_player_prop · now))
        batch) 0

/-- The per-game loop (lines 1165-1180): `except BallDontLieError` catches
only `.bdl` failures — the loop then continues with the next game — while
any `.other` failure propagates out of the function. -/
def propsFilteredLoop (fetch : Int → Except PyErr (List PropRecord))
    (upsert : List Row → Except PyErr Nat) (now : String) (batch : Nat) :
    List Int → Nat → Except PyErr Nat
  | [], acc => .ok acc
  | gid :: rest, acc =>
    match processGame fetch upsert now batch gid with
    | .ok n => propsFilteredLoop fetch upsert now batch rest (acc + n)
    | .error .bdl => propsFilteredLoop fetch upsert now batch rest acc
    | .error .other => .error .other

/-- `ingest_player_props_filtered` (lines 1150-1187), over effect oracles. -/
def ingest_player_props_filtered (fetch : Int → Except PyErr (List PropRecord))
    (upsert : List Row → Except PyErr Nat) (now : String) (batch : Nat)
    (gameIds : List Int) : Except PyErr Nat :=
  propsFilteredLoop fetch upsert now batch gameIds 0

/-- What one game contributes to the returned count. -/
def gameCount (fetch : Int → Except PyErr (List PropRecord))
    (upsert : List Row → Except PyErr Nat) (now : String) (batch : Nat)
    (gid : Int) : Nat :=
  match processGame fetch upsert now batch gid with
  | .ok n => n
  | .error _ => 0

/-- A well-formed prop of game 1 and one of game 2. -/
def c9prop (g : Int) : PropRecord :=
  ⟨some (.int g), some (.int g), some 55, some "draftkings", none,
    some ⟨some "over_under", some (.int (-110)), some (.int (-105)), none⟩,
    some "passing_yards", some (.int 250), some "T"⟩

/-- C9 counterexample: with two games whose fetches succeed but whose
upserts raise a non-`BallDontLieError` store error, the function aborts with
that error instead of logging it, skipping the game and returning the counts
of the remaining games — the `except BallDontLieError` clause does not
isolate upsert failures. -/
theorem props_upsert_failure_aborts_loop :
    ingest_player_props_filtered
        (fun g => .ok [c9prop g]) (fun _ => .error .other) "T" 500 [1, 2] =
      .error .other := by
  decide

theorem propsFilteredLoop_sum (fetch : Int → Except PyErr (List PropRecord))
    (upsert : List Row → Except PyErr Nat) (now : String) (batch : Nat) :
    ∀ (gameIds : List Int) (acc : Nat),
      (∀ g ∈ gameIds, processGame fetch upsert now batch g ≠ .error .other) →
      propsFilteredLoop fetch upsert now batch gameIds acc =
        .ok (acc + (gameIds.map (gameCount fetch upsert now batch)).sum) := by
  intro gameIds
  induction gameIds with
  | nil => intro acc _; simp [propsFilteredLoop]
  | cons gid rest ih =>
    intro acc h
    have hrest : ∀ g ∈ rest, processGame fetch upsert now batch g ≠ .error .other :=
      fun g hg => h g (List.mem_cons_of_mem gid hg)
    rw [propsFilteredLoop]
    cases hg : processGame fetch upsert now batch gid with
    | ok n =>
      show propsFilteredLoop fetch upsert now batch rest (acc + n) =
        .ok (acc + (List.map (gameCount fetch upsert now batch) (gid :: rest)).sum)
      rw [ih (acc + n) hrest]
      simp [gameCount, hg, Nat.add_assoc]
    | error e =>
      cases e with
      | bdl =>
        show propsFilteredLoop fetch upsert now batch rest acc =
          .ok (acc + (List.map (gameCount fetch upsert now batch) (gid :: rest)).sum)
        rw [ih acc hrest]
        simp [gameCount, hg]
      | other => exact absurd hg (h gid (by simp))

/-- C9 (amended): a `BallDontLieError` raised while fetching one game's props
is caught and logged against that game only — the loop continues with the
next game id, and the function returns the summed count of the games that
succeeded (a failed game contributing 0).  Failures of any other class, such
as a store error raised by `supabase.upsert`, are not caught and abort the
remaining games. -/
theorem props_loop_isolates_bdl_failures (fetch : Int → Except PyErr (List PropRecord))
    (upsert : List Row → Except PyErr Nat) (now : String) (batch : Nat)
    (gameIds : List Int)
    (h : ∀ g ∈ gameIds, processGame fetch upsert now batch g ≠ .error .other) :
    ingest_player_props_filtered fetch upsert now batch gameIds =
      .ok ((gameIds.map (gameCount fetch upsert now batch)).sum) := by
  unfold ingest_player_props_filtered
  rw [propsFilteredLoop_sum fetch upsert now batch gameIds 0 h]
  simp

/-- C9 witness: game 1's fetch raises `BallDontLieError`, game 2 succeeds
with one prop and an upsert counting its rows; the function returns the
count from game 2 alone. -/
theorem props_loop_isolation_witness :
    ingest_player_props_filtered
        (fun g => if g = 1 then .error .bdl else .ok [c9prop g])
        (fun rows => .ok rows.length) "T" 500 [1, 2] = .ok 1 := by
  have h := props_loop_isolates_bdl_failures
    (fun g => if g = 1 then .error .bdl else .ok [c9prop g])
    (fun rows => .ok rows.length) "T" 500 [1, 2] (by decide)
  rw [h]
  decide

end NFLStats
